import Mathlib

/-!
Verification of the spectrum bit-vector library.

The development shallowly embeds the Go package `spectrum`
(files `spectrum.go` and `operation.go`).  A `Spectrum` holds an
arbitrary-precision integer `bitVector` (Go `*big.Int`, hence a signed
`ℤ` here) together with a declared bit length.  The randomized weight
adjustment consumes an explicit stream of random indices (`List ℕ`),
standing for the successive results of `rnd.Intn(length)`; the loop is
modelled as a fuel-style recursion over that stream returning `Option`,
`none` meaning the stream ran out before the loop exited.
-/

/-- Number of one bits via repeated division by two, with explicit fuel
so that the definition is structural.  `popCount n` uses fuel `n`,
which always suffices. -/
def popCountFuel : ℕ → ℕ → ℕ
  | 0, _ => 0
  | _ + 1, 0 => 0
  | f + 1, n + 1 => (n + 1) % 2 + popCountFuel f ((n + 1) / 2)

/-- Population count of a natural number: the number of ones in its
binary representation.  Models Go `math/bits.OnesCount` summed over the
words of a `big.Int` magnitude. -/
def popCount (n : ℕ) : ℕ := popCountFuel n n

/-- Bit length via repeated division by two, with explicit fuel. -/
def bitLenFuel : ℕ → ℕ → ℕ
  | 0, _ => 0
  | _ + 1, 0 => 0
  | f + 1, n + 1 => bitLenFuel f ((n + 1) / 2) + 1

/-- Bit length of a natural number: the length of its binary
representation.  Models Go `big.Int.BitLen` (length of the absolute
value) and `math/bits.Len`. -/
def bitLen (n : ℕ) : ℕ := bitLenFuel n n

/-- Go big.Int.SetBit: for b = 1 it sets z = x OR (1 shifted left i), for
b = 0 it sets z = x ANDNOT (1 shifted left i).  Stated arithmetically via
the tested bit, which is the same function on the two's-complement
semantics of big.Int: setting an absent bit adds 2 ^ i, clearing a
present bit subtracts it, and otherwise the value is unchanged. -/
def bigSetBit (x : ℤ) (i : ℕ) (b : ℕ) : ℤ :=
  if b = 1 then (if x.testBit i then x else x + 2 ^ i)
  else if x.testBit i then x - 2 ^ i else x

/-- The same operation restricted to naturals, used in proofs. -/
def natSetBit (v i b : ℕ) : ℕ :=
  if b = 1 then (if v.testBit i then v else v + 2 ^ i)
  else if v.testBit i then v - 2 ^ i else v

/-- The Spectrum entity of spectrum.go: a bit vector backed by a Go
big.Int (a signed arbitrary-precision integer, hence an integer here)
together with the declared bit length.  The private random source is
not part of the value state; randomized operations instead take the
stream of indices it would produce. -/
structure Spectrum where
  bitVector : ℤ
  length : ℕ
deriving DecidableEq, Repr

/-- The declared-length invariant of the spec: the backing value is a
nonnegative integer below two to the declared length. -/
def Spectrum.Valid (s : Spectrum) : Prop :=
  0 ≤ s.bitVector ∧ s.bitVector < 2 ^ s.length

instance (s : Spectrum) : Decidable s.Valid :=
  inferInstanceAs (Decidable (0 ≤ s.bitVector ∧ s.bitVector < 2 ^ s.length))

/-- NewSpectrum: fresh entity with value zero and the given length.
The error result of the Go function is always nil. -/
def NewSpectrum (length : ℕ) : Spectrum × Option String :=
  (⟨0, length⟩, none)

/-- Error message of the length check in Set and SetUint64. -/
def lengthErrorMsg : String := "Error: bitVector is too big for length of Spectrum."

/-- Error message of the string-conversion failure in SetString. -/
def parseErrorMsg : String := "Error: Failed to convert string."

/-- Spectrum.Set: reject when the length is smaller than the bit length
of x (the bit length of the absolute value, as for big.Int.BitLen),
otherwise store x.  On rejection the entity is returned unchanged,
modelling the Go early return that precedes any mutation. -/
def Spectrum.Set (s : Spectrum) (x : ℤ) : Spectrum × Option String :=
  if s.length < bitLen x.natAbs then (s, some lengthErrorMsg)
  else ({ s with bitVector := x }, none)

/-- Spectrum.SetUint64: like Set for an unsigned 64-bit input, with the
length check via bits.Len. -/
def Spectrum.SetUint64 (s : Spectrum) (x : ℕ) : Spectrum × Option String :=
  if s.length < bitLen x then (s, some lengthErrorMsg)
  else ({ s with bitVector := (x : ℤ) }, none)

/-- Numeric value of a digit character as in big.Int.SetString: decimal
digits, then letters for ten and beyond.  Through base thirty-six the
two letter cases are equivalent; in the larger bases (thirty-seven to
sixty-two) the uppercase letters continue at thirty-six.  Any other
character yields 99, invalid in every base in range. -/
def digitValue (base : ℕ) (c : Char) : ℕ :=
  if '0' ≤ c ∧ c ≤ '9' then c.toNat - '0'.toNat
  else if 'a' ≤ c ∧ c ≤ 'z' then c.toNat - 'a'.toNat + 10
  else if 'A' ≤ c ∧ c ≤ 'Z' then
    (if base ≤ 36 then c.toNat - 'A'.toNat + 10 else c.toNat - 'A'.toNat + 36)
  else 99

/-- Digit scanner of the base-zero branch of big.Int.SetString, with the
Go integer-literal underscore rules: an underscore must stand between
two digits or between the base marker and the first digit (the first
flag records that the previous character allows one), the string must
hold at least one digit (the second flag records that one was seen) and
may not end on an underscore. -/
def scanDigits (base : ℕ) : List Char → Bool → Bool → ℕ → Option ℕ
  | [], _, seen, acc => if seen then some acc else none
  | '_' :: rest, prevOk, seen, acc =>
    if prevOk then
      match rest with
      | [] => none
      | c :: _ =>
        if digitValue base c < base then scanDigits base rest false seen acc
        else none
    else none
  | c :: rest, _, _, acc =>
    if digitValue base c < base then
      scanDigits base rest true true (acc * base + digitValue base c)
    else none

/-- Go big.NewInt(0).SetString(str, base): an optional sign, then for
base zero the base is auto-detected (the markers 0b, 0o, 0x for two,
eight and sixteen, a bare leading zero meaning octal with that zero as
its first digit, decimal otherwise) and underscores are permitted under
the Go literal rules; for an explicit base from two to sixty-two the
rest must be one or more digits of that base with no underscores,
letters being case-insensitive through thirty-six and the uppercase
letters counting from thirty-six beyond that.  Every other base is
rejected, the whole string must be consumed, and none models
ok = false. -/
def goParseInt (str : String) (base : ℕ) : Option ℤ :=
  let signDigits : Bool × List Char :=
    match str.data with
    | '-' :: t => (true, t)
    | '+' :: t => (false, t)
    | t => (false, t)
  let ds := signDigits.2
  let val : Option ℕ :=
    if base = 0 then
      match ds with
      | [] => none
      | '0' :: rest =>
        match rest with
        | [] => some 0
        | c :: rest2 =>
          if c = 'b' ∨ c = 'B' then scanDigits 2 rest2 true false 0
          else if c = 'o' ∨ c = 'O' then scanDigits 8 rest2 true false 0
          else if c = 'x' ∨ c = 'X' then scanDigits 16 rest2 true false 0
          else scanDigits 8 rest true true 0
      | _ => scanDigits 10 ds false false 0
    else if 2 ≤ base ∧ base ≤ 62 then
      if ds = [] then none
      else if ds.all (fun d => digitValue base d < base) then
        some (ds.foldl (fun acc d => acc * base + digitValue base d) 0)
      else none
    else none
  val.map (fun n => if signDigits.1 then -(n : ℤ) else (n : ℤ))

/-- Spectrum.SetString: parse the string in the given base, failing with
the conversion error when it does not parse, then delegate to Set. -/
def Spectrum.SetString (s : Spectrum) (str : String) (base : ℕ) :
    Spectrum × Option String :=
  match goParseInt str base with
  | none => (s, some parseErrorMsg)
  | some v => s.Set v

/-- Spectrum.Copy: a fresh entity of the same length whose value is set
from the original (big.Int.Set copies the digits, so the two entities
share no storage; the copy also receives a freshly seeded random
source, which is not part of the value state). -/
def Spectrum.Copy (s : Spectrum) : Spectrum :=
  ((NewSpectrum s.length).1.Set s.bitVector).1

/-- Spectrum.Len. -/
def Spectrum.Len (s : Spectrum) : ℕ := s.length

/-- Spectrum.OnesCount: population count summed over the words of the
big.Int magnitude, hence the population count of the absolute value. -/
def Spectrum.OnesCount (s : Spectrum) : ℕ := popCount s.bitVector.natAbs

/-- Loop body of Spectrum.AdjustOnesCount: while the ones count differs
from the target, set bit rnd.Intn(length) to the fixed value b and
recompute the count.  The list holds the successive random indices;
none means the stream was exhausted before the loop exited. -/
def adjustLoop (n b : ℕ) : List ℕ → Spectrum → Option Spectrum
  | [], s => if s.OnesCount = n then some s else none
  | i :: rest, s =>
    if s.OnesCount = n then some s
    else adjustLoop n b rest { s with bitVector := bigSetBit s.bitVector i b }

/-- Spectrum.AdjustOnesCount: when the target exceeds half the length
the vector is first wholesale reassigned to all ones (SetUint64 1, Lsh
by the length, Sub 1); the set-versus-clear direction is then chosen
once, before the loop, by comparing the target with the current count. -/
def Spectrum.AdjustOnesCount (s : Spectrum) (n : ℕ) (rs : List ℕ) :
    Option Spectrum :=
  let s1 := if s.length / 2 < n then { s with bitVector := 2 ^ s.length - 1 } else s
  let b := if n < s1.OnesCount then 0 else 1
  adjustLoop n b rs s1

/-- The weight-adjustment algorithm exactly as the spec states it
(section 4.3), for comparison with the implementation: while the count
differs from the target, pick the next random index and set that bit
when the count is low or clear it when the count is high, then
recompute; the starting value is never wholesale reassigned. -/
def specAdjustLoop (n : ℕ) : List ℕ → Spectrum → Option Spectrum
  | [], s => if s.OnesCount = n then some s else none
  | i :: rest, s =>
    if s.OnesCount = n then some s
    else
      specAdjustLoop n rest
        { s with
          bitVector :=
            if s.OnesCount < n then bigSetBit s.bitVector i 1
            else bigSetBit s.bitVector i 0 }

/-- Spectrum.IsUint64: big.Int.IsUint64, true when the value is
nonnegative and its magnitude fits in sixty-four bits. -/
def Spectrum.IsUint64 (s : Spectrum) : Bool :=
  decide (0 ≤ s.bitVector) && decide (bitLen s.bitVector.natAbs ≤ 64)

/-- Spectrum.Uint64: big.Int.Uint64 returns the low sixty-four bits of
the magnitude; the Go documentation calls the result undefined when the
value is not representable, and no error is reported. -/
def Spectrum.Uint64 (s : Spectrum) : ℕ := s.bitVector.natAbs % 2 ^ 64

/-- Spectrum.BigInt: a value copy of the backing integer. -/
def Spectrum.BigInt (s : Spectrum) : ℤ := s.bitVector

/-- Digit character for bases up to thirty-six, as printed by
big.Int.Text: decimal digits then lowercase letters. -/
def digitChar (d : ℕ) : Char :=
  if d < 10 then Char.ofNat ('0'.toNat + d) else Char.ofNat ('a'.toNat + d - 10)

/-- Digits of a natural number in the given base, most significant
first, with explicit fuel (the value itself always suffices). -/
def toDigitsFuel (b : ℕ) : ℕ → ℕ → List Char
  | 0, _ => []
  | _ + 1, 0 => []
  | f + 1, n + 1 => toDigitsFuel b f ((n + 1) / b) ++ [digitChar ((n + 1) % b)]

/-- Text of a natural number in the given base; zero prints as the
single digit zero. -/
def natText (b n : ℕ) : String :=
  if n = 0 then "0" else String.mk (toDigitsFuel b n n)

/-- Go big.Int.Text: sign followed by the digits of the magnitude. -/
def bigText (b : ℕ) (x : ℤ) : String :=
  if x < 0 then "-" ++ natText b x.natAbs else natText b x.natAbs

/-- Sprintf with the zero flag and a star width on a string: pad on the
left with zero characters up to the width, never truncating. -/
def goPad (w : ℕ) (str : String) : String :=
  String.mk (List.replicate (w - str.length) '0') ++ str

/-- Spectrum.Bit: binary text padded to the declared length, with the
0b marker in front. -/
def Spectrum.Bit (s : Spectrum) : String :=
  "0b" ++ goPad s.length (bigText 2 s.bitVector)

/-- Spectrum.Text: digits in the given base, unpadded, no marker. -/
def Spectrum.Text (s : Spectrum) (base : ℕ) : String :=
  bigText base s.bitVector

/-- Spectrum.Hex: hexadecimal text padded to a quarter of the declared
length rounded upward, with the 0x marker in front. -/
def Spectrum.Hex (s : Spectrum) : String :=
  let l := s.length / 4
  let l := if 0 < s.length % 4 then l + 1 else l
  "0x" ++ goPad l (bigText 16 s.bitVector)

/-- Spectrum.Uint64n: adjust the weight of a throwaway copy and read it
back as a sixty-four bit number. -/
def Spectrum.Uint64n (s : Spectrum) (n : ℕ) (rs : List ℕ) : Option ℕ :=
  (s.Copy.AdjustOnesCount n rs).map Spectrum.Uint64

/-- Spectrum.BigIntn: adjust the weight of a throwaway copy and read it
back as a big integer. -/
def Spectrum.BigIntn (s : Spectrum) (n : ℕ) (rs : List ℕ) : Option ℤ :=
  (s.Copy.AdjustOnesCount n rs).map Spectrum.BigInt

/-- One iteration of the Rsh loop: when the low bit is one (the Go code
compares the AND with one against one, which is the test of bit zero)
set conceptual bit L, then shift right by one (big.Int.Rsh, floor
division by two). -/
def rshStep (L : ℕ) (b : ℤ) : ℤ :=
  (if b.testBit 0 then bigSetBit b L 1 else b).fdiv 2

/-- Number of iterations the Rsh and Lsh loops perform.  The Go loop is
for i := 0; i < int(n); i++ with n a uint: on the 64-bit platform the
conversion reinterprets the unsigned value in two's complement, so a
count of two to the sixty-third or more becomes negative and the loop
body never runs (counts from two to the sixty-fourth up are not
representable in the Go argument). -/
def goIntIter (n : ℕ) : ℕ := if n < 2 ^ 63 then n else 0

/-- Rsh: circular right shift by int(n) single-bit steps on a value
copy, then a copy of the source receives the result through Set (whose
error result the Go code ignores). -/
def Rsh (s : Spectrum) (n : ℕ) : Spectrum :=
  (s.Copy.Set ((rshStep s.length)^[goIntIter n] s.BigInt)).1

/-- One iteration of the Lsh loop: shift left by one (big.Int.Lsh, an
exact doubling on the sign-magnitude representation), and when the
result outgrows the declared length clear conceptual bit L and set bit
zero. -/
def lshStep (L : ℕ) (b : ℤ) : ℤ :=
  let b2 := b * 2
  if L < bitLen b2.natAbs then bigSetBit (bigSetBit b2 L 0) 0 1 else b2

/-- Lsh: circular left shift by int(n) single-bit steps on a value
copy, then a copy of the source receives the result through Set. -/
def Lsh (s : Spectrum) (n : ℕ) : Spectrum :=
  (s.Copy.Set ((lshStep s.length)^[goIntIter n] s.BigInt)).1

/-- Merge: a new entity of the combined length whose value is the first
operand shifted left by the second length (an exact multiplication by a
power of two on big.Int), OR the second value.  NewSpectrum never
fails, and the result of the final Set is ignored as in the Go code. -/
def Merge (x y : Spectrum) : Spectrum × Option String :=
  let l := x.Len + y.Len
  let b := Int.lor (x.BigInt * 2 ^ y.Len) y.BigInt
  let s := NewSpectrum l
  ((s.1.Set b).1, s.2)

/-- Closed form of one circular right shift on naturals below the
width: an odd value gains the high bit after halving. -/
def natRotR (L v : ℕ) : ℕ :=
  if v % 2 = 1 then (v + 2 ^ L) / 2 else v / 2

/-- Closed form of one circular left shift on naturals below the width:
a doubling that overflows loses the overflow bit and gains bit zero. -/
def natRotL (L v : ℕ) : ℕ :=
  if 2 ^ L ≤ 2 * v then 2 * v - 2 ^ L + 1 else 2 * v

theorem popCountFuel_zero (f : ℕ) : popCountFuel f 0 = 0 := by
  cases f <;> rfl

theorem popCountFuel_congr : ∀ f g n : ℕ, n ≤ f → n ≤ g →
    popCountFuel f n = popCountFuel g n := by
  intro f
  induction f with
  | zero =>
    intro g n hf _
    interval_cases n
    exact (popCountFuel_zero g).symm
  | succ f ih =>
    intro g n hf hg
    match n, g with
    | 0, g => simp [popCountFuel_zero]
    | n + 1, 0 => omega
    | n + 1, g + 1 =>
      show (n + 1) % 2 + popCountFuel f ((n + 1) / 2)
          = (n + 1) % 2 + popCountFuel g ((n + 1) / 2)
      have h1 : (n + 1) / 2 ≤ f := by omega
      have h2 : (n + 1) / 2 ≤ g := by omega
      rw [ih g ((n + 1) / 2) h1 h2]

theorem popCount_zero : popCount 0 = 0 := rfl

theorem popCount_eq (n : ℕ) (h : n ≠ 0) :
    popCount n = n % 2 + popCount (n / 2) := by
  obtain ⟨m, rfl⟩ : ∃ m, n = m + 1 := ⟨n - 1, by omega⟩
  show (m + 1) % 2 + popCountFuel m ((m + 1) / 2) = _
  have : popCountFuel m ((m + 1) / 2) = popCount ((m + 1) / 2) :=
    popCountFuel_congr m ((m + 1) / 2) ((m + 1) / 2) (by omega) le_rfl
  rw [this]

theorem bitLenFuel_zero (f : ℕ) : bitLenFuel f 0 = 0 := by
  cases f <;> rfl

theorem bitLenFuel_congr : ∀ f g n : ℕ, n ≤ f → n ≤ g →
    bitLenFuel f n = bitLenFuel g n := by
  intro f
  induction f with
  | zero =>
    intro g n hf _
    interval_cases n
    exact (bitLenFuel_zero g).symm
  | succ f ih =>
    intro g n hf hg
    match n, g with
    | 0, g => simp [bitLenFuel_zero]
    | n + 1, 0 => omega
    | n + 1, g + 1 =>
      show bitLenFuel f ((n + 1) / 2) + 1 = bitLenFuel g ((n + 1) / 2) + 1
      have h1 : (n + 1) / 2 ≤ f := by omega
      have h2 : (n + 1) / 2 ≤ g := by omega
      rw [ih g ((n + 1) / 2) h1 h2]

theorem bitLen_zero : bitLen 0 = 0 := rfl

theorem bitLen_eq (n : ℕ) (h : n ≠ 0) : bitLen n = bitLen (n / 2) + 1 := by
  obtain ⟨m, rfl⟩ : ∃ m, n = m + 1 := ⟨n - 1, by omega⟩
  show bitLenFuel m ((m + 1) / 2) + 1 = _
  have : bitLenFuel m ((m + 1) / 2) = bitLen ((m + 1) / 2) :=
    bitLenFuel_congr m ((m + 1) / 2) ((m + 1) / 2) (by omega) le_rfl
  rw [this]

/-- A value fits in `L` bits exactly when it is below `2 ^ L`. -/
theorem bitLen_le_iff (n L : ℕ) : bitLen n ≤ L ↔ n < 2 ^ L := by
  induction n using Nat.strong_induction_on generalizing L with
  | _ n ih =>
    rcases Nat.eq_zero_or_pos n with rfl | hn
    · rw [bitLen_zero]
      simp only [Nat.zero_le, true_iff]
      positivity
    · rw [bitLen_eq n (by omega)]
      cases L with
      | zero =>
        simp only [pow_zero]
        omega
      | succ K =>
        have hdiv : n / 2 < n := Nat.div_lt_self hn (by omega)
        have := ih (n / 2) hdiv K
        have hpow : 2 ^ (K + 1) = 2 * 2 ^ K := by ring
        omega

theorem popCount_two_pow (i : ℕ) : popCount (2 ^ i) = 1 := by
  induction i with
  | zero => rfl
  | succ i ih =>
    have hne : 2 ^ (i + 1) ≠ 0 := by positivity
    have hp : 2 ^ (i + 1) = 2 * 2 ^ i := by ring
    rw [popCount_eq _ hne]
    have h1 : 2 ^ (i + 1) % 2 = 0 := by omega
    have h2 : 2 ^ (i + 1) / 2 = 2 ^ i := by omega
    rw [h1, h2, ih]

theorem popCount_add_two_pow (i : ℕ) : ∀ n : ℕ, n.testBit i = false →
    popCount (n + 2 ^ i) = popCount n + 1 := by
  induction i with
  | zero =>
    intro n h
    rw [Nat.testBit_zero] at h
    have hev : n % 2 = 0 := by
      simp only [decide_eq_false_iff_not] at h
      omega
    rcases Nat.eq_zero_or_pos n with rfl | hn
    · rfl
    · rw [popCount_eq (n + 2 ^ 0) (by positivity), popCount_eq n (by omega)]
      have h1 : (n + 2 ^ 0) % 2 = 1 := by simp only [pow_zero]; omega
      have h2 : (n + 2 ^ 0) / 2 = n / 2 := by simp only [pow_zero]; omega
      rw [h1, h2]
      omega
  | succ i ih =>
    intro n h
    rw [Nat.testBit_add_one] at h
    have hp : 2 ^ (i + 1) = 2 * 2 ^ i := by ring
    rcases Nat.eq_zero_or_pos n with rfl | hn
    · rw [Nat.zero_add, popCount_two_pow]
      rfl
    · rw [popCount_eq (n + 2 ^ (i + 1)) (by positivity), popCount_eq n (by omega)]
      have h1 : (n + 2 ^ (i + 1)) % 2 = n % 2 := by omega
      have h2 : (n + 2 ^ (i + 1)) / 2 = n / 2 + 2 ^ i := by omega
      rw [h1, h2, ih (n / 2) h]
      omega

theorem testBit_true_le {n i : ℕ} (h : n.testBit i = true) : 2 ^ i ≤ n := by
  by_contra hlt
  rw [Nat.testBit_lt_two_pow (by omega)] at h
  exact Bool.false_ne_true h

theorem testBit_sub_two_pow (i : ℕ) : ∀ n : ℕ, n.testBit i = true →
    (n - 2 ^ i).testBit i = false := by
  induction i with
  | zero =>
    intro n h
    rw [Nat.testBit_zero] at h ⊢
    simp only [decide_eq_true_eq] at h
    simp only [decide_eq_false_iff_not, pow_zero]
    omega
  | succ i ih =>
    intro n h
    have hle : 2 ^ (i + 1) ≤ n := testBit_true_le h
    rw [Nat.testBit_add_one] at h ⊢
    have hp : 2 ^ (i + 1) = 2 * 2 ^ i := by ring
    have h2 : (n - 2 ^ (i + 1)) / 2 = n / 2 - 2 ^ i := by omega
    rw [h2]
    exact ih (n / 2) h

theorem popCount_sub_two_pow {n i : ℕ} (h : n.testBit i = true) :
    popCount n = popCount (n - 2 ^ i) + 1 := by
  have hle : 2 ^ i ≤ n := testBit_true_le h
  have hfalse := testBit_sub_two_pow i n h
  have := popCount_add_two_pow i (n - 2 ^ i) hfalse
  rw [Nat.sub_add_cancel hle] at this
  exact this

theorem add_two_pow_lt (i : ℕ) : ∀ v L : ℕ, v < 2 ^ L → i < L →
    v.testBit i = false → v + 2 ^ i < 2 ^ L := by
  induction i with
  | zero =>
    intro v L hv hi h
    rw [Nat.testBit_zero] at h
    simp only [decide_eq_false_iff_not] at h
    obtain ⟨K, rfl⟩ : ∃ K, L = K + 1 := ⟨L - 1, by omega⟩
    have hp : 2 ^ (K + 1) = 2 * 2 ^ K := by ring
    simp only [pow_zero]
    omega
  | succ i ih =>
    intro v L hv hi h
    rw [Nat.testBit_add_one] at h
    obtain ⟨K, rfl⟩ : ∃ K, L = K + 1 := ⟨L - 1, by omega⟩
    have hp : 2 ^ (K + 1) = 2 * 2 ^ K := by ring
    have hv2 : v / 2 < 2 ^ K := by omega
    have := ih (v / 2) K hv2 (by omega) h
    have hq : 2 ^ (i + 1) = 2 * 2 ^ i := by ring
    omega

theorem intTestBit_coe (v i : ℕ) : (v : ℤ).testBit i = v.testBit i := rfl

theorem bigSetBit_coe (v i b : ℕ) :
    bigSetBit (v : ℤ) i b = (natSetBit v i b : ℤ) := by
  unfold bigSetBit natSetBit
  rw [intTestBit_coe]
  by_cases hb : b = 1
  · rcases ht : v.testBit i with _ | _
    · simp only [hb, if_true, ht, Bool.false_eq_true, if_false]
      push_cast
      ring
    · simp [hb, ht]
  · rcases ht : v.testBit i with _ | _
    · simp [hb, ht]
    · simp only [hb, if_false, ht, if_true]
      rw [Int.ofNat_sub (testBit_true_le ht)]
      push_cast
      ring

theorem natSetBit_lt {v L : ℕ} (i b : ℕ) (hv : v < 2 ^ L) (hi : i < L) :
    natSetBit v i b < 2 ^ L := by
  unfold natSetBit
  by_cases hb : b = 1
  · rcases ht : v.testBit i with _ | _
    · simp only [hb, if_true, ht, Bool.false_eq_true, if_false]
      exact add_two_pow_lt i v L hv hi ht
    · simpa [hb, ht] using hv
  · rcases ht : v.testBit i with _ | _
    · simpa [hb, ht] using hv
    · simp only [hb, if_false, ht, if_true]
      exact lt_of_le_of_lt (Nat.sub_le v (2 ^ i)) hv

theorem popCount_natSetBit_one_le (v i : ℕ) :
    popCount (natSetBit v i 1) ≤ popCount v + 1 := by
  unfold natSetBit
  rcases ht : v.testBit i with _ | _ <;> simp [ht]
  rw [popCount_add_two_pow i v ht]

theorem popCount_le_natSetBit_zero (v i : ℕ) :
    popCount v ≤ popCount (natSetBit v i 0) + 1 := by
  unfold natSetBit
  rcases ht : v.testBit i with _ | _ <;> simp [ht]
  rw [popCount_sub_two_pow ht]

theorem intCast_pow_nat (L : ℕ) : ((2 ^ L : ℕ) : ℤ) = (2 : ℤ) ^ L := by
  push_cast
  ring

theorem lt_two_pow_of_bitLen_le {x : ℤ} {L : ℕ} (h0 : 0 ≤ x)
    (h : bitLen x.natAbs ≤ L) : x < 2 ^ L := by
  rw [bitLen_le_iff] at h
  rw [← intCast_pow_nat]
  omega

theorem bitLen_natAbs_le {x : ℤ} {L : ℕ} (h0 : 0 ≤ x) (h : x < 2 ^ L) :
    bitLen x.natAbs ≤ L := by
  rw [bitLen_le_iff]
  rw [← intCast_pow_nat] at h
  omega

theorem set_of_valid {s : Spectrum} {x : ℤ} (h0 : 0 ≤ x)
    (h : x < 2 ^ s.length) : s.Set x = (⟨x, s.length⟩, none) := by
  unfold Spectrum.Set
  rw [if_neg (by simpa using bitLen_natAbs_le h0 h)]

theorem set_valid {s : Spectrum} (x : ℤ) (hs : s.Valid) (h0 : 0 ≤ x) :
    ((s.Set x).1).Valid := by
  unfold Spectrum.Set
  by_cases h : s.length < bitLen x.natAbs
  · rw [if_pos h]
    exact hs
  · rw [if_neg h]
    exact ⟨h0, lt_two_pow_of_bitLen_le h0 (le_of_not_lt h)⟩

theorem copy_of_valid {s : Spectrum} (hs : s.Valid) : s.Copy = s := by
  obtain ⟨V, L⟩ := s
  obtain ⟨h0, hlt⟩ := hs
  show ((Spectrum.mk 0 L).Set V).1 = Spectrum.mk V L
  unfold Spectrum.Set
  rw [if_neg (not_lt.mpr (bitLen_natAbs_le h0 hlt))]

theorem onesCount_coe (v : ℕ) (L : ℕ) :
    Spectrum.OnesCount ⟨(v : ℤ), L⟩ = popCount v := by
  unfold Spectrum.OnesCount
  simp

theorem adjustLoop_some (n b : ℕ) : ∀ (rs : List ℕ) (s t : Spectrum),
    adjustLoop n b rs s = some t → t.OnesCount = n ∧ t.length = s.length := by
  intro rs
  induction rs with
  | nil =>
    intro s t h
    unfold adjustLoop at h
    by_cases hoc : s.OnesCount = n
    · rw [if_pos hoc] at h
      cases h
      exact ⟨hoc, rfl⟩
    · rw [if_neg hoc] at h
      cases h
  | cons i rest ih =>
    intro s t h
    unfold adjustLoop at h
    by_cases hoc : s.OnesCount = n
    · rw [if_pos hoc] at h
      cases h
      exact ⟨hoc, rfl⟩
    · rw [if_neg hoc] at h
      obtain ⟨h1, h2⟩ := ih _ t h
      exact ⟨h1, h2⟩

theorem adjustLoop_valid (n b : ℕ) : ∀ (rs : List ℕ) (s t : Spectrum),
    s.Valid → (∀ i ∈ rs, i < s.length) →
    adjustLoop n b rs s = some t → t.Valid := by
  intro rs
  induction rs with
  | nil =>
    intro s t hs _ h
    unfold adjustLoop at h
    by_cases hoc : s.OnesCount = n
    · rw [if_pos hoc] at h
      cases h
      exact hs
    · rw [if_neg hoc] at h
      cases h
  | cons i rest ih =>
    intro s t hs hmem h
    unfold adjustLoop at h
    by_cases hoc : s.OnesCount = n
    · rw [if_pos hoc] at h
      cases h
      exact hs
    · rw [if_neg hoc] at h
      obtain ⟨h0, hlt⟩ := hs
      obtain ⟨v, hv⟩ : ∃ v : ℕ, s.bitVector = (v : ℤ) :=
        ⟨s.bitVector.toNat, (Int.toNat_of_nonneg h0).symm⟩
      have hvlt : v < 2 ^ s.length := by
        rw [hv, ← intCast_pow_nat] at hlt
        omega
      have hnext : Spectrum.Valid
          { s with bitVector := bigSetBit s.bitVector i b } := by
        constructor
        · show (0 : ℤ) ≤ bigSetBit s.bitVector i b
          rw [hv, bigSetBit_coe]
          positivity
        · show bigSetBit s.bitVector i b < 2 ^ s.length
          rw [hv, bigSetBit_coe, ← intCast_pow_nat]
          have := natSetBit_lt i b hvlt (hmem i (by simp))
          omega
      exact ih _ t hnext (fun j hj => hmem j (by simp [hj])) h

theorem popCount_two_pow_sub_one (L : ℕ) : popCount (2 ^ L - 1) = L := by
  induction L with
  | zero => rfl
  | succ L ih =>
    have hp : 2 ^ (L + 1) = 2 * 2 ^ L := by ring
    have hpos : 0 < 2 ^ L := by positivity
    rw [popCount_eq (2 ^ (L + 1) - 1) (by omega)]
    have h1 : (2 ^ (L + 1) - 1) % 2 = 1 := by omega
    have h2 : (2 ^ (L + 1) - 1) / 2 = 2 ^ L - 1 := by omega
    rw [h1, h2, ih]
    omega

theorem natRotR_lt {L v : ℕ} (hv : v < 2 ^ L) : natRotR L v < 2 ^ L := by
  unfold natRotR
  by_cases h : v % 2 = 1 <;> simp only [h, if_true, if_false] <;> omega

theorem natRotL_lt {L v : ℕ} (hv : v < 2 ^ L) : natRotL L v < 2 ^ L := by
  unfold natRotL
  by_cases h : 2 ^ L ≤ 2 * v <;> simp only [h, if_true, if_false] <;> omega

theorem rshStep_coe {L v : ℕ} (hv : v < 2 ^ L) :
    rshStep L (v : ℤ) = (natRotR L v : ℤ) := by
  unfold rshStep natRotR
  rw [intTestBit_coe, Nat.testBit_zero]
  by_cases h : v % 2 = 1
  · rw [if_pos (by simp [h]), if_pos h]
    rw [bigSetBit_coe]
    have hsb : natSetBit v L 1 = v + 2 ^ L := by
      unfold natSetBit
      rw [Nat.testBit_lt_two_pow hv]
      simp
    rw [hsb]
    exact (Int.ofNat_fdiv (v + 2 ^ L) 2).symm
  · rw [if_neg (by simp [h]), if_neg h]
    exact (Int.ofNat_fdiv v 2).symm

theorem lshStep_coe {L v : ℕ} (hv : v < 2 ^ L) :
    lshStep L (v : ℤ) = (natRotL L v : ℤ) := by
  unfold lshStep natRotL
  show (if L < bitLen ((v : ℤ) * 2).natAbs
      then bigSetBit (bigSetBit ((v : ℤ) * 2) L 0) 0 1 else (v : ℤ) * 2)
      = ((if 2 ^ L ≤ 2 * v then 2 * v - 2 ^ L + 1 else 2 * v : ℕ) : ℤ)
  have hcast : ((v : ℤ) * 2).natAbs = 2 * v := by
    rw [Int.natAbs_mul]
    simp [mul_comm]
  rw [hcast]
  by_cases h : L < bitLen (2 * v)
  · have h2 : 2 ^ L ≤ 2 * v := by
      by_contra hc
      have := (bitLen_le_iff (2 * v) L).mpr (by omega)
      omega
    rw [if_pos h, if_pos h2]
    have hL : 1 ≤ L := by
      by_contra hL0
      have : L = 0 := by omega
      subst this
      simp only [pow_zero] at h2 hv
      omega
    obtain ⟨K, rfl⟩ : ∃ K, L = K + 1 := ⟨L - 1, by omega⟩
    have hp : 2 ^ (K + 1) = 2 * 2 ^ K := by ring
    have hvcast : ((v : ℤ) * 2) = ((2 * v : ℕ) : ℤ) := by push_cast; ring
    rw [hvcast, bigSetBit_coe]
    have htb : (2 * v).testBit (K + 1) = true := by
      rw [Nat.testBit_to_div_mod]
      have : 2 * v / 2 ^ (K + 1) = 1 :=
        Nat.div_eq_of_lt_le (by omega) (by omega)
      simp [this]
    have hsb0 : natSetBit (2 * v) (K + 1) 0 = 2 * v - 2 ^ (K + 1) := by
      unfold natSetBit
      rw [htb]
      simp
    rw [hsb0, bigSetBit_coe]
    have htb0 : (2 * v - 2 ^ (K + 1)).testBit 0 = false := by
      rw [Nat.testBit_zero]
      simp only [decide_eq_false_iff_not]
      omega
    have hsb1 : natSetBit (2 * v - 2 ^ (K + 1)) 0 1 = 2 * v - 2 ^ (K + 1) + 1 := by
      unfold natSetBit
      rw [htb0]
      simp
    rw [hsb1]
  · have h2 : ¬ 2 ^ L ≤ 2 * v := by
      have := (bitLen_le_iff (2 * v) L).mp (by omega)
      omega
    rw [if_neg h, if_neg h2]
    push_cast
    ring

theorem natRotR_iter_lt (L : ℕ) : ∀ (n v : ℕ), v < 2 ^ L →
    (natRotR L)^[n] v < 2 ^ L := by
  intro n
  induction n with
  | zero => intro v hv; simpa using hv
  | succ n ih =>
    intro v hv
    rw [Function.iterate_succ_apply']
    exact natRotR_lt (ih v hv)

theorem natRotL_iter_lt (L : ℕ) : ∀ (n v : ℕ), v < 2 ^ L →
    (natRotL L)^[n] v < 2 ^ L := by
  intro n
  induction n with
  | zero => intro v hv; simpa using hv
  | succ n ih =>
    intro v hv
    rw [Function.iterate_succ_apply']
    exact natRotL_lt (ih v hv)

theorem rshStep_iter_coe (L : ℕ) : ∀ (n v : ℕ), v < 2 ^ L →
    (rshStep L)^[n] (v : ℤ) = ((natRotR L)^[n] v : ℤ) := by
  intro n
  induction n with
  | zero => intro v _; simp
  | succ n ih =>
    intro v hv
    rw [Function.iterate_succ_apply', Function.iterate_succ_apply',
      ih v hv, rshStep_coe (natRotR_iter_lt L n v hv)]

theorem lshStep_iter_coe (L : ℕ) : ∀ (n v : ℕ), v < 2 ^ L →
    (lshStep L)^[n] (v : ℤ) = ((natRotL L)^[n] v : ℤ) := by
  intro n
  induction n with
  | zero => intro v _; simp
  | succ n ih =>
    intro v hv
    rw [Function.iterate_succ_apply', Function.iterate_succ_apply',
      ih v hv, lshStep_coe (natRotL_iter_lt L n v hv)]

theorem natRotR_iter_formula (L : ℕ) : ∀ (n v : ℕ), n ≤ L → v < 2 ^ L →
    (natRotR L)^[n] v = v / 2 ^ n + (v % 2 ^ n) * 2 ^ (L - n) := by
  intro n
  induction n with
  | zero =>
    intro v _ _
    simp [Nat.mod_one]
  | succ n ih =>
    intro v hn hv
    rw [Function.iterate_succ_apply', ih v (by omega) hv]
    have hb : v % 2 ^ n < 2 ^ n := Nat.mod_lt v (by positivity)
    have hr : 2 ^ (L - n) = 2 * 2 ^ (L - n - 1) := by
      have h := pow_succ 2 (L - n - 1)
      have he : L - n - 1 + 1 = L - n := by omega
      rw [he] at h
      omega
    have hL : 2 ^ L = 2 * (2 ^ n * 2 ^ (L - n - 1)) := by
      have he : n + 1 + (L - n - 1) = L := by omega
      calc 2 ^ L = 2 ^ (n + 1 + (L - n - 1)) := by rw [he]
        _ = 2 ^ (n + 1) * 2 ^ (L - n - 1) := pow_add 2 (n + 1) (L - n - 1)
        _ = 2 * (2 ^ n * 2 ^ (L - n - 1)) := by ring
    have hdiv : v / 2 ^ n / 2 = v / 2 ^ (n + 1) := by
      rw [Nat.div_div_eq_div_mul, ← pow_succ]
    have hmod : v % 2 ^ (n + 1) = v % 2 ^ n + 2 ^ n * (v / 2 ^ n % 2) :=
      Nat.mod_pow_succ
    have hee : L - (n + 1) = L - n - 1 := by omega
    unfold natRotR
    set a := v / 2 ^ n with ha
    set b := v % 2 ^ n with hbd
    set r := 2 ^ (L - n - 1) with hrd
    have hbr : b * 2 ^ (L - n) = 2 * (b * r) := by rw [hr]; ring
    by_cases hpar : a % 2 = 1
    · rw [if_pos (by omega)]
      have h1 : (a + b * 2 ^ (L - n) + 2 ^ L) / 2 = a / 2 + b * r + 2 ^ n * r := by
        rw [hbr, hL]
        omega
      rw [h1, hdiv, hmod, hee, ← hrd]
      have h2 : (b + 2 ^ n * (a % 2)) * r = b * r + 2 ^ n * r := by
        rw [hpar]
        ring
      rw [h2]
      omega
    · rw [if_neg (by omega)]
      have h1 : (a + b * 2 ^ (L - n)) / 2 = a / 2 + b * r := by
        rw [hbr]
        omega
      rw [h1, hdiv, hmod, hee, ← hrd]
      have h2 : (b + 2 ^ n * (a % 2)) * r = b * r := by
        have : a % 2 = 0 := by omega
        rw [this]
        ring
      rw [h2]

theorem natRotR_iter_len {L v : ℕ} (hv : v < 2 ^ L) :
    (natRotR L)^[L] v = v := by
  rw [natRotR_iter_formula L L v le_rfl hv]
  rw [Nat.div_eq_of_lt hv, Nat.mod_eq_of_lt hv]
  simp

theorem natRotL_natRotR {L v : ℕ} (hv : v < 2 ^ L) :
    natRotL L (natRotR L v) = v := by
  unfold natRotR natRotL
  cases L with
  | zero =>
    simp only [pow_zero] at hv ⊢
    split_ifs <;> omega
  | succ K =>
    have hp : 2 ^ (K + 1) = 2 * 2 ^ K := by ring
    rw [hp] at hv ⊢
    split_ifs <;> omega

theorem natRotR_natRotL {L v : ℕ} (hv : v < 2 ^ L) :
    natRotR L (natRotL L v) = v := by
  unfold natRotR natRotL
  cases L with
  | zero =>
    simp only [pow_zero] at hv ⊢
    split_ifs <;> omega
  | succ K =>
    have hp : 2 ^ (K + 1) = 2 * 2 ^ K := by ring
    rw [hp] at hv ⊢
    split_ifs <;> omega

theorem natRotR_iter_natRotL_iter (L : ℕ) : ∀ (n v : ℕ), v < 2 ^ L →
    (natRotR L)^[n] ((natRotL L)^[n] v) = v := by
  intro n
  induction n with
  | zero => intro v _; simp
  | succ n ih =>
    intro v hv
    rw [Function.iterate_succ_apply (natRotL L), Function.iterate_succ_apply']
    rw [ih (natRotL L v) (natRotL_lt hv)]
    exact natRotR_natRotL hv

theorem natRotL_iter_len {L v : ℕ} (hv : v < 2 ^ L) :
    (natRotL L)^[L] v = v := by
  have hw : (natRotL L)^[L] v < 2 ^ L := natRotL_iter_lt L L v hv
  have h1 : (natRotR L)^[L] ((natRotL L)^[L] v) = v :=
    natRotR_iter_natRotL_iter L L v hv
  rw [natRotR_iter_len hw] at h1
  exact h1

theorem iter_mod_of_period {f : ℕ → ℕ} {P : ℕ → Prop} {L : ℕ} (hL : 1 ≤ L)
    (hper : ∀ v, P v → f^[L] v = v) :
    ∀ n v, P v → f^[n] v = f^[n % L] v := by
  intro n
  induction n using Nat.strong_induction_on with
  | _ n ih =>
    intro v hv
    by_cases hn : n < L
    · rw [Nat.mod_eq_of_lt hn]
    · have hsplit : n = (n - L) + L := by omega
      have key : f^[n] v = f^[n - L] v := by
        conv_lhs => rw [hsplit]
        rw [Function.iterate_add_apply, hper v hv]
      rw [key, ih (n - L) (by omega) v hv]
      have hm : n % L = (n - L) % L := Nat.mod_eq_sub_mod (by omega)
      rw [hm]

theorem onesCount_nonneg_eq {s : Spectrum} {v : ℕ} (hv : s.bitVector = (v : ℤ)) :
    s.OnesCount = popCount v := by
  unfold Spectrum.OnesCount
  rw [hv]
  simp

theorem adjustLoop_eq_spec_one (n : ℕ) : ∀ (rs : List ℕ) (s : Spectrum),
    0 ≤ s.bitVector → s.OnesCount ≤ n →
    adjustLoop n 1 rs s = specAdjustLoop n rs s := by
  intro rs
  induction rs with
  | nil => intro s _ _; rfl
  | cons i rest ih =>
    intro s h0 hle
    unfold adjustLoop specAdjustLoop
    by_cases hoc : s.OnesCount = n
    · rw [if_pos hoc, if_pos hoc]
    · rw [if_neg hoc, if_neg hoc, if_pos (by omega : s.OnesCount < n)]
      obtain ⟨v, hv⟩ : ∃ v : ℕ, s.bitVector = (v : ℤ) :=
        ⟨s.bitVector.toNat, (Int.toNat_of_nonneg h0).symm⟩
      have hocv : s.OnesCount = popCount v := onesCount_nonneg_eq hv
      apply ih
      · show (0 : ℤ) ≤ bigSetBit s.bitVector i 1
        rw [hv, bigSetBit_coe]
        positivity
      · show popCount (bigSetBit s.bitVector i 1).natAbs ≤ n
        rw [hv, bigSetBit_coe]
        simp only [Int.natAbs_ofNat]
        have := popCount_natSetBit_one_le v i
        omega

theorem adjustLoop_eq_spec_zero (n : ℕ) : ∀ (rs : List ℕ) (s : Spectrum),
    0 ≤ s.bitVector → n ≤ s.OnesCount →
    adjustLoop n 0 rs s = specAdjustLoop n rs s := by
  intro rs
  induction rs with
  | nil => intro s _ _; rfl
  | cons i rest ih =>
    intro s h0 hge
    unfold adjustLoop specAdjustLoop
    by_cases hoc : s.OnesCount = n
    · rw [if_pos hoc, if_pos hoc]
    · rw [if_neg hoc, if_neg hoc, if_neg (by omega : ¬ s.OnesCount < n)]
      obtain ⟨v, hv⟩ : ∃ v : ℕ, s.bitVector = (v : ℤ) :=
        ⟨s.bitVector.toNat, (Int.toNat_of_nonneg h0).symm⟩
      have hocv : s.OnesCount = popCount v := onesCount_nonneg_eq hv
      apply ih
      · show (0 : ℤ) ≤ bigSetBit s.bitVector i 0
        rw [hv, bigSetBit_coe]
        positivity
      · show n ≤ popCount (bigSetBit s.bitVector i 0).natAbs
        rw [hv, bigSetBit_coe]
        simp only [Int.natAbs_ofNat]
        have := popCount_le_natSetBit_zero v i
        omega

theorem natLor_mul_pow_add {a b k : ℕ} (hb : b < 2 ^ k) :
    (a * 2 ^ k) ||| b = a * 2 ^ k + b := by
  apply Nat.eq_of_testBit_eq
  intro j
  rw [Nat.testBit_lor, mul_comm a (2 ^ k), Nat.testBit_mul_pow_two,
    Nat.testBit_mul_pow_two_add a hb j]
  by_cases hj : j < k
  · simp [hj, (by omega : ¬ j ≥ k)]
  · have hbj : b.testBit j = false :=
      Nat.testBit_lt_two_pow
        (lt_of_lt_of_le hb (Nat.pow_le_pow_right (by omega) (by omega)))
    simp [hj, (by omega : j ≥ k), hbj]

theorem intLor_coe (m n : ℕ) :
    Int.lor (m : ℤ) (n : ℤ) = ((m ||| n : ℕ) : ℤ) := rfl

theorem string_length_mk (l : List Char) : (String.mk l).length = l.length := rfl

theorem goPad_length (w : ℕ) (str : String) :
    (goPad w str).length = max w str.length := by
  unfold goPad
  rw [String.length_append, string_length_mk, List.length_replicate]
  omega

theorem toDigitsFuel_length {b : ℕ} (hb : 2 ≤ b) :
    ∀ n f L : ℕ, n ≤ f → n < b ^ L → (toDigitsFuel b f n).length ≤ L := by
  intro n
  induction n using Nat.strong_induction_on with
  | _ n ih =>
    intro f L hf hL
    rcases Nat.eq_zero_or_pos n with rfl | hn
    · cases f <;> simp [toDigitsFuel]
    · obtain ⟨m, rfl⟩ : ∃ m, n = m + 1 := ⟨n - 1, by omega⟩
      obtain ⟨g, rfl⟩ : ∃ g, f = g + 1 := ⟨f - 1, by omega⟩
      obtain ⟨K, rfl⟩ : ∃ K, L = K + 1 := by
        refine ⟨L - 1, by_contra fun hc => ?_⟩
        have hL0 : L = 0 := by omega
        rw [hL0, pow_zero] at hL
        omega
      show (toDigitsFuel b g ((m + 1) / b) ++ [digitChar ((m + 1) % b)]).length ≤ K + 1
      rw [List.length_append]
      have hdivlt : (m + 1) / b < m + 1 := Nat.div_lt_self (by omega) (by omega)
      have hdivK : (m + 1) / b < b ^ K := by
        rw [Nat.div_lt_iff_lt_mul (by omega)]
        calc m + 1 < b ^ (K + 1) := hL
          _ = b ^ K * b := pow_succ b K
      have := ih ((m + 1) / b) hdivlt g K (by omega) hdivK
      simp only [List.length_singleton]
      omega

theorem natText_length_le {b n L : ℕ} (hb : 2 ≤ b) (hL : 1 ≤ L)
    (hn : n < b ^ L) : (natText b n).length ≤ L := by
  unfold natText
  by_cases h : n = 0
  · rw [if_pos h]
    show (1 : ℕ) ≤ L
    omega
  · rw [if_neg h]
    rw [string_length_mk]
    exact toDigitsFuel_length hb n n L le_rfl hn

theorem coe_lt_coe_pow {v L : ℕ} (h : v < 2 ^ L) : (v : ℤ) < 2 ^ L := by
  rw [← intCast_pow_nat]
  exact_mod_cast h

theorem coe_pow_lt {V : ℤ} {L : ℕ} (h0 : 0 ≤ V) (h : V < 2 ^ L) :
    V.toNat < 2 ^ L := by
  rw [← intCast_pow_nat] at h
  omega

theorem Rsh_eq (L n v : ℕ) (hv : v < 2 ^ L) :
    Rsh ⟨(v : ℤ), L⟩ n = ⟨(((natRotR L)^[goIntIter n] v : ℕ) : ℤ), L⟩ := by
  unfold Rsh
  have hcopy : (Spectrum.mk (v : ℤ) L).Copy = Spectrum.mk (v : ℤ) L :=
    copy_of_valid ⟨by positivity, coe_lt_coe_pow hv⟩
  rw [hcopy]
  have hbig : (Spectrum.mk (v : ℤ) L).BigInt = (v : ℤ) := rfl
  rw [hbig, rshStep_iter_coe L (goIntIter n) v hv]
  rw [set_of_valid (by positivity)
    (coe_lt_coe_pow (natRotR_iter_lt L (goIntIter n) v hv))]

theorem Lsh_eq (L n v : ℕ) (hv : v < 2 ^ L) :
    Lsh ⟨(v : ℤ), L⟩ n = ⟨(((natRotL L)^[goIntIter n] v : ℕ) : ℤ), L⟩ := by
  unfold Lsh
  have hcopy : (Spectrum.mk (v : ℤ) L).Copy = Spectrum.mk (v : ℤ) L :=
    copy_of_valid ⟨by positivity, coe_lt_coe_pow hv⟩
  rw [hcopy]
  have hbig : (Spectrum.mk (v : ℤ) L).BigInt = (v : ℤ) := rfl
  rw [hbig, lshStep_iter_coe L (goIntIter n) v hv]
  rw [set_of_valid (by positivity)
    (coe_lt_coe_pow (natRotL_iter_lt L (goIntIter n) v hv))]

theorem rsh_valid {s : Spectrum} (n : ℕ) (hs : s.Valid) : (Rsh s n).Valid := by
  obtain ⟨V, L⟩ := s
  obtain ⟨h0, hlt⟩ := hs
  obtain ⟨v, rfl⟩ : ∃ v : ℕ, V = (v : ℤ) := ⟨V.toNat, (Int.toNat_of_nonneg h0).symm⟩
  have hlt2 : (v : ℤ) < 2 ^ L := hlt
  have hv : v < 2 ^ L := by
    rw [← intCast_pow_nat] at hlt2
    exact_mod_cast hlt2
  rw [Rsh_eq L n v hv]
  exact ⟨by positivity, coe_lt_coe_pow (natRotR_iter_lt L (goIntIter n) v hv)⟩

theorem lsh_valid {s : Spectrum} (n : ℕ) (hs : s.Valid) : (Lsh s n).Valid := by
  obtain ⟨V, L⟩ := s
  obtain ⟨h0, hlt⟩ := hs
  obtain ⟨v, rfl⟩ : ∃ v : ℕ, V = (v : ℤ) := ⟨V.toNat, (Int.toNat_of_nonneg h0).symm⟩
  have hlt2 : (v : ℤ) < 2 ^ L := hlt
  have hv : v < 2 ^ L := by
    rw [← intCast_pow_nat] at hlt2
    exact_mod_cast hlt2
  rw [Lsh_eq L n v hv]
  exact ⟨by positivity, coe_lt_coe_pow (natRotL_iter_lt L (goIntIter n) v hv)⟩

theorem merge_value_lt {a b Lx Ly : ℕ} (ha : a < 2 ^ Lx) (hb : b < 2 ^ Ly) :
    a * 2 ^ Ly + b < 2 ^ (Lx + Ly) := by
  calc a * 2 ^ Ly + b < a * 2 ^ Ly + 2 ^ Ly := by omega
    _ = (a + 1) * 2 ^ Ly := by ring
    _ ≤ 2 ^ Lx * 2 ^ Ly := Nat.mul_le_mul_right _ (by omega)
    _ = 2 ^ (Lx + Ly) := (pow_add 2 Lx Ly).symm

theorem Merge_eq (x y : Spectrum) {a b : ℕ}
    (hx : x.bitVector = (a : ℤ)) (hy : y.bitVector = (b : ℤ))
    (ha : a < 2 ^ x.length) (hb : b < 2 ^ y.length) :
    Merge x y = (⟨((a * 2 ^ y.length + b : ℕ) : ℤ), x.length + y.length⟩, none) := by
  unfold Merge Spectrum.Len Spectrum.BigInt NewSpectrum
  show (((Spectrum.mk 0 (x.length + y.length)).Set
      (Int.lor (x.bitVector * 2 ^ y.length) y.bitVector)).1, (none : Option String))
      = (⟨((a * 2 ^ y.length + b : ℕ) : ℤ), x.length + y.length⟩, none)
  rw [hx, hy]
  have hcast : (a : ℤ) * 2 ^ y.length = ((a * 2 ^ y.length : ℕ) : ℤ) := by
    push_cast
    ring
  rw [hcast, intLor_coe, natLor_mul_pow_add hb]
  rw [set_of_valid (by positivity)
    (coe_lt_coe_pow (merge_value_lt ha hb))]

theorem setUint64_valid {s : Spectrum} (x : ℕ) (hs : s.Valid) :
    ((s.SetUint64 x).1).Valid := by
  unfold Spectrum.SetUint64
  by_cases h : s.length < bitLen x
  · rw [if_pos h]
    exact hs
  · rw [if_neg h]
    refine ⟨by positivity, ?_⟩
    show (x : ℤ) < 2 ^ s.length
    exact coe_lt_coe_pow ((bitLen_le_iff x s.length).mp (by omega))

theorem allOnes_valid (L : ℕ) : (Spectrum.mk ((2 : ℤ) ^ L - 1) L).Valid := by
  have hpos : (0 : ℤ) < 2 ^ L := by positivity
  exact ⟨by show (0 : ℤ) ≤ 2 ^ L - 1; omega,
    by show (2 : ℤ) ^ L - 1 < 2 ^ L; omega⟩

theorem adjustOnesCount_valid {s t : Spectrum} {n : ℕ} {rs : List ℕ}
    (hs : s.Valid) (hmem : ∀ i ∈ rs, i < s.length)
    (h : s.AdjustOnesCount n rs = some t) : t.Valid := by
  unfold Spectrum.AdjustOnesCount at h
  by_cases hf : s.length / 2 < n
  · rw [if_pos hf] at h
    exact adjustLoop_valid n _ rs _ t (allOnes_valid s.length) hmem h
  · rw [if_neg hf] at h
    exact adjustLoop_valid n _ rs s t hs hmem h

theorem merge_valid {x y : Spectrum} (hx : x.Valid) (hy : y.Valid) :
    ((Merge x y).1).Valid := by
  obtain ⟨hx0, hxlt⟩ := hx
  obtain ⟨hy0, hylt⟩ := hy
  obtain ⟨a, hxa⟩ : ∃ a : ℕ, x.bitVector = (a : ℤ) :=
    ⟨x.bitVector.toNat, (Int.toNat_of_nonneg hx0).symm⟩
  obtain ⟨b, hyb⟩ : ∃ b : ℕ, y.bitVector = (b : ℤ) :=
    ⟨y.bitVector.toNat, (Int.toNat_of_nonneg hy0).symm⟩
  have ha : a < 2 ^ x.length := by
    rw [hxa, ← intCast_pow_nat] at hxlt
    exact_mod_cast hxlt
  have hb : b < 2 ^ y.length := by
    rw [hyb, ← intCast_pow_nat] at hylt
    exact_mod_cast hylt
  rw [Merge_eq x y hxa hyb ha hb]
  exact ⟨by positivity, coe_lt_coe_pow (merge_value_lt ha hb)⟩

/-- C1 counterexample: the claim fails as stated because Set accepts a
negative big.Int whenever the bit length of its absolute value fits the
declared length (big.Int.BitLen is the length of the absolute value),
so after a successful Set the backing value can be negative: with
declared length three, Set of minus five succeeds (no error) and stores
minus five, violating zero less-or-equal value. -/
theorem C1_counterexample :
    (((NewSpectrum 3).1.Set (-5)).2 = none) ∧
    (((NewSpectrum 3).1.Set (-5)).1.bitVector = -5) ∧
    ¬ ((((NewSpectrum 3).1.Set (-5)).1).Valid) := by decide

/-- C1 (amended): for every Spectrum the invariant that the backing
value lies in the interval from zero up to two to the declared length
holds after construction, after every successful or failed setter
provided the assigned value is nonnegative (Set and SetString accept a
negative input whose absolute value fits, which is the sole exception),
after a terminating AdjustOnesCount whose random indices are below the
length, and in every entity returned by Rsh, Lsh, Copy and Merge on
valid arguments. -/
theorem C1_length_invariant :
    (∀ L : ℕ, ((NewSpectrum L).1).Valid) ∧
    (∀ (s : Spectrum) (x : ℤ), s.Valid → 0 ≤ x → ((s.Set x).1).Valid) ∧
    (∀ (s : Spectrum) (x : ℕ), s.Valid → ((s.SetUint64 x).1).Valid) ∧
    (∀ (s : Spectrum) (str : String) (base : ℕ), s.Valid →
      (∀ v : ℤ, goParseInt str base = some v → 0 ≤ v) →
      ((s.SetString str base).1).Valid) ∧
    (∀ (s t : Spectrum) (n : ℕ) (rs : List ℕ), s.Valid →
      (∀ i ∈ rs, i < s.length) → s.AdjustOnesCount n rs = some t → t.Valid) ∧
    (∀ (s : Spectrum) (n : ℕ), s.Valid → (Rsh s n).Valid) ∧
    (∀ (s : Spectrum) (n : ℕ), s.Valid → (Lsh s n).Valid) ∧
    (∀ s : Spectrum, s.Valid → (s.Copy).Valid) ∧
    (∀ x y : Spectrum, x.Valid → y.Valid → ((Merge x y).1).Valid) := by
  refine ⟨?_, ?_, ?_, ?_, ?_, ?_, ?_, ?_, ?_⟩
  · intro L
    exact ⟨le_refl 0, by positivity⟩
  · intro s x hs h0
    exact set_valid x hs h0
  · intro s x hs
    exact setUint64_valid x hs
  · intro s str base hs hpar
    unfold Spectrum.SetString
    cases hp : goParseInt str base with
    | none => exact hs
    | some v => exact set_valid v hs (hpar v hp)
  · intro s t n rs hs hmem h
    exact adjustOnesCount_valid hs hmem h
  · intro s n hs
    exact rsh_valid n hs
  · intro s n hs
    exact lsh_valid n hs
  · intro s hs
    rw [copy_of_valid hs]
    exact hs
  · intro x y hx hy
    exact merge_valid hx hy

theorem C1_witness :
    (((Spectrum.mk 0 4).Set 9).1).Valid ∧
    (((Spectrum.mk 5 4).SetUint64 12).1).Valid ∧
    (((Spectrum.mk 5 4).SetString "1001" 2).1).Valid ∧
    (((Spectrum.mk 0 8).SetString "123" 0).1).Valid ∧
    (Spectrum.mk 4 4).Valid ∧
    (Rsh ⟨9, 4⟩ 3).Valid ∧
    (Lsh ⟨9, 4⟩ 3).Valid ∧
    ((Spectrum.mk 9 4).Copy).Valid ∧
    ((Merge ⟨9, 4⟩ ⟨1, 1⟩).1).Valid :=
  ⟨C1_length_invariant.2.1 (Spectrum.mk 0 4) 9 (by decide) (by decide),
   C1_length_invariant.2.2.1 (Spectrum.mk 5 4) 12 (by decide),
   C1_length_invariant.2.2.2.1 (Spectrum.mk 5 4) "1001" 2 (by decide)
     (by
       intro v hv
       have h9 : goParseInt "1001" 2 = some 9 := by decide
       rw [h9] at hv
       cases hv
       decide),
   C1_length_invariant.2.2.2.1 (Spectrum.mk 0 8) "123" 0 (by decide)
     (by
       intro v hv
       have h123 : goParseInt "123" 0 = some 123 := by decide
       rw [h123] at hv
       cases hv
       decide),
   C1_length_invariant.2.2.2.2.1 (Spectrum.mk 0 4) (Spectrum.mk 4 4) 1 [2]
     (by decide) (by decide) (by decide),
   C1_length_invariant.2.2.2.2.2.1 ⟨9, 4⟩ 3 (by decide),
   C1_length_invariant.2.2.2.2.2.2.1 ⟨9, 4⟩ 3 (by decide),
   C1_length_invariant.2.2.2.2.2.2.2.1 (Spectrum.mk 9 4) (by decide),
   C1_length_invariant.2.2.2.2.2.2.2.2 ⟨9, 4⟩ ⟨1, 1⟩ (by decide) (by decide)⟩

/-- C2: for every Spectrum of positive length and every target not
exceeding the length, whenever AdjustOnesCount terminates (the random
stream suffices to exit the loop) the returned entity has ones count
exactly the target and the same declared length as the receiver. -/
theorem C2_adjust_hits_target (s t : Spectrum) (n : ℕ) (rs : List ℕ)
    (hL : 1 ≤ s.length) (hn : n ≤ s.length)
    (h : s.AdjustOnesCount n rs = some t) :
    t.OnesCount = n ∧ t.length = s.length := by
  unfold Spectrum.AdjustOnesCount at h
  by_cases hf : s.length / 2 < n
  · rw [if_pos hf] at h
    obtain ⟨h1, h2⟩ := adjustLoop_some _ _ _ _ _ h
    exact ⟨h1, h2⟩
  · rw [if_neg hf] at h
    exact adjustLoop_some _ _ _ _ _ h

theorem C2_witness :
    Spectrum.AdjustOnesCount ⟨0, 4⟩ 1 [2] = some ⟨4, 4⟩ ∧
    (Spectrum.mk 4 4).OnesCount = 1 ∧ (Spectrum.mk 4 4).length = 4 :=
  ⟨by decide,
   (C2_adjust_hits_target ⟨0, 4⟩ ⟨4, 4⟩ 1 [2] (by decide) (by decide)
     (by decide)).1,
   (C2_adjust_hits_target ⟨0, 4⟩ ⟨4, 4⟩ 1 [2] (by decide) (by decide)
     (by decide)).2⟩

/-- C3 counterexample: the current Uint64 has no error result at all
and silently truncates: on the valid Spectrum of length sixty-five
holding two to the sixty-fourth power it returns zero, a value
different from the stored one, while IsUint64 (a separate predicate the
extraction does not consult) reports false. -/
theorem C3_counterexample :
    (Spectrum.mk ((2 : ℤ) ^ 64) 65).Valid ∧
    Spectrum.Uint64 (Spectrum.mk ((2 : ℤ) ^ 64) 65) = 0 ∧
    ((Spectrum.Uint64 (Spectrum.mk ((2 : ℤ) ^ 64) 65) : ℕ) : ℤ) ≠
      (Spectrum.mk ((2 : ℤ) ^ 64) 65).bitVector ∧
    Spectrum.IsUint64 (Spectrum.mk ((2 : ℤ) ^ 64) 65) = false := by decide

/-- C3 (amended): Uint64 never fails; it returns the value exactly when
the value fits in sixty-four bits and otherwise returns the low
sixty-four bits of the magnitude (a truncated value), while the
separate predicate IsUint64 reports exactly whether the value fits, so
representability must be checked through IsUint64 before extracting. -/
theorem C3_uint64_amended (s : Spectrum) (hs : s.Valid) :
    (s.IsUint64 = true ↔ s.bitVector < 2 ^ 64) ∧
    (s.bitVector < 2 ^ 64 → (s.Uint64 : ℤ) = s.bitVector) := by
  obtain ⟨h0, _⟩ := hs
  obtain ⟨v, hv⟩ : ∃ v : ℕ, s.bitVector = (v : ℤ) :=
    ⟨s.bitVector.toNat, (Int.toNat_of_nonneg h0).symm⟩
  constructor
  · unfold Spectrum.IsUint64
    rw [hv]
    simp only [Int.natAbs_ofNat, Bool.and_eq_true, decide_eq_true_eq]
    constructor
    · rintro ⟨_, h⟩
      exact coe_lt_coe_pow ((bitLen_le_iff v 64).mp h)
    · intro h
      have hnat : v < 2 ^ 64 := by
        rw [← intCast_pow_nat] at h
        exact_mod_cast h
      exact ⟨by positivity, (bitLen_le_iff v 64).mpr hnat⟩
  · intro h
    unfold Spectrum.Uint64
    rw [hv] at h ⊢
    have hnat : v < 2 ^ 64 := by
      rw [← intCast_pow_nat] at h
      exact_mod_cast h
    simp only [Int.natAbs_ofNat]
    rw [Nat.mod_eq_of_lt hnat]

theorem C3_witness :
    (Spectrum.mk 5 7).IsUint64 = true ∧ ((Spectrum.mk 5 7).Uint64 : ℤ) = 5 :=
  ⟨(C3_uint64_amended (Spectrum.mk 5 7) (by decide)).1.mpr (by decide),
   (C3_uint64_amended (Spectrum.mk 5 7) (by decide)).2 (by decide)⟩

/-- C4: a failed Set, SetUint64 or SetString leaves the entity exactly
as it was (validation precedes mutation); Set fails with the length
message precisely when the candidate needs more bits than declared;
SetString fails with the distinct conversion message precisely on a
parse failure and otherwise delegates its error to Set; the two
messages differ. -/
theorem C4_setter_failure_atomic :
    (∀ (s : Spectrum) (x : ℤ) (e : String),
      (s.Set x).2 = some e → (s.Set x).1 = s) ∧
    (∀ (s : Spectrum) (x : ℕ) (e : String),
      (s.SetUint64 x).2 = some e → (s.SetUint64 x).1 = s) ∧
    (∀ (s : Spectrum) (str : String) (base : ℕ) (e : String),
      (s.SetString str base).2 = some e → (s.SetString str base).1 = s) ∧
    (∀ (s : Spectrum) (x : ℤ),
      (s.Set x).2 = some lengthErrorMsg ↔ s.length < bitLen x.natAbs) ∧
    (∀ (s : Spectrum) (str : String) (base : ℕ), goParseInt str base = none →
      (s.SetString str base).2 = some parseErrorMsg) ∧
    (∀ (s : Spectrum) (str : String) (base : ℕ) (v : ℤ),
      goParseInt str base = some v →
      (s.SetString str base).2 = (s.Set v).2) ∧
    parseErrorMsg ≠ lengthErrorMsg := by
  refine ⟨?_, ?_, ?_, ?_, ?_, ?_, by decide⟩
  · intro s x e h
    unfold Spectrum.Set at h ⊢
    by_cases hc : s.length < bitLen x.natAbs
    · rw [if_pos hc]
    · rw [if_neg hc] at h
      simp at h
  · intro s x e h
    unfold Spectrum.SetUint64 at h ⊢
    by_cases hc : s.length < bitLen x
    · rw [if_pos hc]
    · rw [if_neg hc] at h
      simp at h
  · intro s str base e h
    unfold Spectrum.SetString at h ⊢
    cases hp : goParseInt str base with
    | none => rfl
    | some v =>
      rw [hp] at h
      replace h : (s.Set v).2 = some e := h
      show (s.Set v).1 = s
      unfold Spectrum.Set at h ⊢
      by_cases hc : s.length < bitLen v.natAbs
      · rw [if_pos hc]
      · rw [if_neg hc] at h
        simp at h
  · intro s x
    unfold Spectrum.Set
    by_cases hc : s.length < bitLen x.natAbs
    · simp [hc]
    · simp [hc]
  · intro s str base hp
    unfold Spectrum.SetString
    rw [hp]
  · intro s str base v hp
    unfold Spectrum.SetString
    rw [hp]

theorem C4_witness :
    ((Spectrum.mk 0 2).Set 9).1 = Spectrum.mk 0 2 ∧
    ((Spectrum.mk 0 2).SetUint64 9).1 = Spectrum.mk 0 2 ∧
    ((Spectrum.mk 0 2).SetString "fff" 16).1 = Spectrum.mk 0 2 ∧
    ((Spectrum.mk 0 2).Set 9).2 = some lengthErrorMsg ∧
    ((Spectrum.mk 0 2).SetString "xy" 16).2 = some parseErrorMsg ∧
    ((Spectrum.mk 0 2).SetString "fff" 16).2 = ((Spectrum.mk 0 2).Set 4095).2 ∧
    ((Spectrum.mk 0 8).SetString "123" 0).2 = ((Spectrum.mk 0 8).Set 123).2 ∧
    ((Spectrum.mk 0 8).SetString "0x1F" 0).2 = ((Spectrum.mk 0 8).Set 31).2 :=
  ⟨C4_setter_failure_atomic.1 (Spectrum.mk 0 2) 9 lengthErrorMsg (by decide),
   C4_setter_failure_atomic.2.1 (Spectrum.mk 0 2) 9 lengthErrorMsg (by decide),
   C4_setter_failure_atomic.2.2.1 (Spectrum.mk 0 2) "fff" 16 lengthErrorMsg
     (by decide),
   (C4_setter_failure_atomic.2.2.2.1 (Spectrum.mk 0 2) 9).mpr (by decide),
   C4_setter_failure_atomic.2.2.2.2.1 (Spectrum.mk 0 2) "xy" 16 (by decide),
   C4_setter_failure_atomic.2.2.2.2.2.1 (Spectrum.mk 0 2) "fff" 16 4095
     (by decide),
   C4_setter_failure_atomic.2.2.2.2.2.1 (Spectrum.mk 0 8) "123" 0 123
     (by decide),
   C4_setter_failure_atomic.2.2.2.2.2.1 (Spectrum.mk 0 8) "0x1F" 0 31
     (by decide)⟩

/-- C5 counterexample: with length two, target two, starting value zero
and an empty random stream, the implementation pre-fills the vector to
all ones (a wholesale reassignment changing two bits at once before the
loop) and exits immediately, while the spec's algorithm, which only
flips one randomly chosen bit per iteration starting from the current
value, cannot have terminated on the empty stream. -/
theorem C5_counterexample :
    Spectrum.AdjustOnesCount ⟨0, 2⟩ 2 [] = some ⟨3, 2⟩ ∧
    specAdjustLoop 2 [] ⟨0, 2⟩ = none := by decide

/-- C5 (amended): AdjustOnesCount realizes the spec's single-bit-flip
loop except for its fast path: when the target is at most half the
declared length the implementation agrees with the spec's algorithm on
every valid starting value and every random stream, and when the target
exceeds half the length it first wholesale reassigns the value to all
ones and then runs exactly the spec's loop from that pre-filled
state. -/
theorem C5_adjust_amended (s : Spectrum) (n : ℕ) (rs : List ℕ) (hs : s.Valid) :
    (¬ (s.length / 2 < n) → s.AdjustOnesCount n rs = specAdjustLoop n rs s) ∧
    (s.length / 2 < n →
      s.AdjustOnesCount n rs =
        specAdjustLoop n rs ⟨(2 : ℤ) ^ s.length - 1, s.length⟩) := by
  obtain ⟨h0, hlt⟩ := hs
  constructor
  · intro hf
    unfold Spectrum.AdjustOnesCount
    rw [if_neg hf]
    show adjustLoop n (if n < s.OnesCount then 0 else 1) rs s
        = specAdjustLoop n rs s
    by_cases hb : n < s.OnesCount
    · rw [if_pos hb]
      exact adjustLoop_eq_spec_zero n rs s h0 (by omega)
    · rw [if_neg hb]
      exact adjustLoop_eq_spec_one n rs s h0 (by omega)
  · intro hf
    unfold Spectrum.AdjustOnesCount
    rw [if_pos hf]
    have hnat : ((2 : ℤ) ^ s.length - 1).natAbs = 2 ^ s.length - 1 := by
      rw [← intCast_pow_nat]
      have hpos : (1 : ℤ) ≤ ((2 ^ s.length : ℕ) : ℤ) := by
        exact_mod_cast Nat.one_le_two_pow
      omega
    have hones : Spectrum.OnesCount
        { s with bitVector := (2 : ℤ) ^ s.length - 1 } = s.length := by
      show popCount ((2 : ℤ) ^ s.length - 1).natAbs = s.length
      rw [hnat, popCount_two_pow_sub_one]
    have hnn : (0 : ℤ) ≤
        (Spectrum.mk ((2 : ℤ) ^ s.length - 1) s.length).bitVector := by
      show (0 : ℤ) ≤ 2 ^ s.length - 1
      have hpos : (0 : ℤ) < 2 ^ s.length := by positivity
      omega
    show adjustLoop n
        (if n < Spectrum.OnesCount
            { s with bitVector := (2 : ℤ) ^ s.length - 1 } then 0 else 1)
        rs { s with bitVector := (2 : ℤ) ^ s.length - 1 }
        = specAdjustLoop n rs ⟨(2 : ℤ) ^ s.length - 1, s.length⟩
    by_cases hb : n < Spectrum.OnesCount
        { s with bitVector := (2 : ℤ) ^ s.length - 1 }
    · rw [if_pos hb]
      exact adjustLoop_eq_spec_zero n rs _ hnn (by omega)
    · rw [if_neg hb]
      exact adjustLoop_eq_spec_one n rs _ hnn (by omega)

theorem C5_witness :
    Spectrum.AdjustOnesCount ⟨2, 4⟩ 1 [0, 1] = specAdjustLoop 1 [0, 1] ⟨2, 4⟩ ∧
    Spectrum.AdjustOnesCount ⟨2, 4⟩ 4 [] =
      specAdjustLoop 4 [] ⟨(2 : ℤ) ^ 4 - 1, 4⟩ :=
  ⟨(C5_adjust_amended ⟨2, 4⟩ 1 [0, 1] (by decide)).1 (by decide),
   (C5_adjust_amended ⟨2, 4⟩ 4 [] (by decide)).2 (by decide)⟩

/-- C6 counterexample: the loop bound of Rsh and Lsh is int(n), the
two's complement reinterpretation of the unsigned count, so for a count
of two to the sixty-third the loop runs zero times and both operations
return the original pattern, while rotating by that count modulo the
length moves bits: with length three and value one the claimed equality
of rotating by n and by n modulo the length fails. -/
theorem C6_counterexample :
    Rsh ⟨1, 3⟩ (2 ^ 63) = ⟨1, 3⟩ ∧
    Rsh ⟨1, 3⟩ (2 ^ 63 % 3) = ⟨2, 3⟩ ∧
    Rsh ⟨1, 3⟩ (2 ^ 63) ≠ Rsh ⟨1, 3⟩ (2 ^ 63 % 3) ∧
    Lsh ⟨1, 3⟩ (2 ^ 63) = ⟨1, 3⟩ ∧
    Lsh ⟨1, 3⟩ (2 ^ 63 % 3) = ⟨4, 3⟩ := by decide

/-- C6 (amended): for every valid Spectrum of positive length, rotating
right or left by any count below two to the sixty-third (where the
conversion of the count to int is the identity) produces the same
entity as rotating by the count modulo the length; for larger counts
the converted bound is negative, the loop runs zero times and both
operations return an entity equal to the original; consequently
rotating by any multiple of the length returns an entity equal to the
original (same declared length, same value) for every multiplier, the
operations being pure functions of the receiver. -/
theorem C6_rotation_amended (s : Spectrum) (n k : ℕ) (hs : s.Valid)
    (hL : 1 ≤ s.length) :
    (n < 2 ^ 63 →
      Rsh s n = Rsh s (n % s.length) ∧ Lsh s n = Lsh s (n % s.length)) ∧
    (2 ^ 63 ≤ n → Rsh s n = s ∧ Lsh s n = s) ∧
    Rsh s (k * s.length) = s ∧ Lsh s (k * s.length) = s := by
  obtain ⟨V, L⟩ := s
  obtain ⟨h0, hlt⟩ := hs
  obtain ⟨v, rfl⟩ : ∃ v : ℕ, V = (v : ℤ) :=
    ⟨V.toNat, (Int.toNat_of_nonneg h0).symm⟩
  have hlt2 : (v : ℤ) < 2 ^ L := hlt
  have hv : v < 2 ^ L := by
    rw [← intCast_pow_nat] at hlt2
    exact_mod_cast hlt2
  have hL2 : 1 ≤ L := hL
  have hRper : ∀ w : ℕ, w < 2 ^ L → (natRotR L)^[L] w = w :=
    fun w hw => natRotR_iter_len hw
  have hLper : ∀ w : ℕ, w < 2 ^ L → (natRotL L)^[L] w = w :=
    fun w hw => natRotL_iter_len hw
  have hRmodL : ∀ m : ℕ, (natRotR L)^[m] v = (natRotR L)^[m % L] v :=
    fun m => iter_mod_of_period hL2 hRper m v hv
  have hLmodL : ∀ m : ℕ, (natRotL L)^[m] v = (natRotL L)^[m % L] v :=
    fun m => iter_mod_of_period hL2 hLper m v hv
  refine ⟨?_, ?_, ?_, ?_⟩
  · intro hn
    have h1 : goIntIter n = n := by
      unfold goIntIter
      rw [if_pos hn]
    have h2 : goIntIter (n % L) = n % L := by
      unfold goIntIter
      rw [if_pos (lt_of_le_of_lt (Nat.mod_le n L) hn)]
    constructor
    · rw [Rsh_eq L n v hv, Rsh_eq L (n % L) v hv, h1, h2, hRmodL n]
    · rw [Lsh_eq L n v hv, Lsh_eq L (n % L) v hv, h1, h2, hLmodL n]
  · intro hn
    have h1 : goIntIter n = 0 := by
      unfold goIntIter
      rw [if_neg (by omega)]
    constructor
    · rw [Rsh_eq L n v hv, h1]
      simp
    · rw [Lsh_eq L n v hv, h1]
      simp
  · rw [Rsh_eq L (k * L) v hv]
    by_cases hk : k * L < 2 ^ 63
    · have h1 : goIntIter (k * L) = k * L := by
        unfold goIntIter
        rw [if_pos hk]
      rw [h1, hRmodL (k * L), Nat.mul_mod_left]
      simp
    · have h1 : goIntIter (k * L) = 0 := by
        unfold goIntIter
        rw [if_neg hk]
      rw [h1]
      simp
  · rw [Lsh_eq L (k * L) v hv]
    by_cases hk : k * L < 2 ^ 63
    · have h1 : goIntIter (k * L) = k * L := by
        unfold goIntIter
        rw [if_pos hk]
      rw [h1, hLmodL (k * L), Nat.mul_mod_left]
      simp
    · have h1 : goIntIter (k * L) = 0 := by
        unfold goIntIter
        rw [if_neg hk]
      rw [h1]
      simp

theorem C6_witness :
    Rsh ⟨9, 4⟩ 7 = Rsh ⟨9, 4⟩ 3 ∧ Lsh ⟨9, 4⟩ 7 = Lsh ⟨9, 4⟩ 3 ∧
    Rsh ⟨9, 4⟩ (2 ^ 63 + 1) = ⟨9, 4⟩ ∧ Lsh ⟨9, 4⟩ (2 ^ 63 + 1) = ⟨9, 4⟩ ∧
    Rsh ⟨9, 4⟩ 8 = ⟨9, 4⟩ ∧ Lsh ⟨9, 4⟩ 8 = ⟨9, 4⟩ :=
  ⟨((C6_rotation_amended ⟨9, 4⟩ 7 2 (by decide) (by decide)).1 (by decide)).1,
   ((C6_rotation_amended ⟨9, 4⟩ 7 2 (by decide) (by decide)).1 (by decide)).2,
   ((C6_rotation_amended ⟨9, 4⟩ (2 ^ 63 + 1) 2 (by decide) (by decide)).2.1
     (by decide)).1,
   ((C6_rotation_amended ⟨9, 4⟩ (2 ^ 63 + 1) 2 (by decide) (by decide)).2.1
     (by decide)).2,
   (C6_rotation_amended ⟨9, 4⟩ 7 2 (by decide) (by decide)).2.2.1,
   (C6_rotation_amended ⟨9, 4⟩ 7 2 (by decide) (by decide)).2.2.2⟩

/-- C7: merging two valid Spectrums always succeeds (the error result
is nil), yields length the sum of the lengths, and yields as value the
first operand shifted left by the second length OR the second value:
equivalently the value is x times two to the second length plus y, its
low bits recover y and its high bits recover x; the operands are read
through value copies and left untouched. -/
theorem C7_merge_concat (x y : Spectrum) (hx : x.Valid) (hy : y.Valid) :
    (Merge x y).2 = none ∧
    (Merge x y).1.length = x.length + y.length ∧
    (Merge x y).1.bitVector = x.bitVector * 2 ^ y.length + y.bitVector ∧
    (Merge x y).1.bitVector % 2 ^ y.length = y.bitVector ∧
    (Merge x y).1.bitVector / 2 ^ y.length = x.bitVector := by
  obtain ⟨hx0, hxlt⟩ := hx
  obtain ⟨hy0, hylt⟩ := hy
  obtain ⟨a, hxa⟩ : ∃ a : ℕ, x.bitVector = (a : ℤ) :=
    ⟨x.bitVector.toNat, (Int.toNat_of_nonneg hx0).symm⟩
  obtain ⟨b, hyb⟩ : ∃ b : ℕ, y.bitVector = (b : ℤ) :=
    ⟨y.bitVector.toNat, (Int.toNat_of_nonneg hy0).symm⟩
  have ha : a < 2 ^ x.length := by
    rw [hxa, ← intCast_pow_nat] at hxlt
    exact_mod_cast hxlt
  have hb : b < 2 ^ y.length := by
    rw [hyb, ← intCast_pow_nat] at hylt
    exact_mod_cast hylt
  rw [Merge_eq x y hxa hyb ha hb]
  refine ⟨rfl, rfl, ?_, ?_, ?_⟩
  · rw [hxa, hyb]
    push_cast
    ring
  · rw [hyb, ← intCast_pow_nat]
    show ((a * 2 ^ y.length + b : ℕ) : ℤ) % ((2 ^ y.length : ℕ) : ℤ) = (b : ℤ)
    have hmod : (a * 2 ^ y.length + b) % 2 ^ y.length = b := by
      rw [mul_comm a (2 ^ y.length), Nat.mul_add_mod]
      exact Nat.mod_eq_of_lt hb
    exact_mod_cast hmod
  · rw [hxa, ← intCast_pow_nat]
    show ((a * 2 ^ y.length + b : ℕ) : ℤ) / ((2 ^ y.length : ℕ) : ℤ) = (a : ℤ)
    have hdiv : (a * 2 ^ y.length + b) / 2 ^ y.length = a := by
      rw [mul_comm a (2 ^ y.length), Nat.mul_add_div (by positivity)]
      rw [Nat.div_eq_of_lt hb]
      omega
    exact_mod_cast hdiv

theorem C7_witness :
    (Merge ⟨2, 2⟩ ⟨1, 1⟩).2 = none ∧
    (Merge ⟨2, 2⟩ ⟨1, 1⟩).1.length = 3 ∧
    (Merge ⟨2, 2⟩ ⟨1, 1⟩).1.bitVector = 5 ∧
    (Merge ⟨2, 2⟩ ⟨1, 1⟩).1.bitVector % 2 ^ 1 = 1 ∧
    (Merge ⟨2, 2⟩ ⟨1, 1⟩).1.bitVector / 2 ^ 1 = 2 :=
  ⟨(C7_merge_concat ⟨2, 2⟩ ⟨1, 1⟩ (by decide) (by decide)).1,
   (C7_merge_concat ⟨2, 2⟩ ⟨1, 1⟩ (by decide) (by decide)).2.1,
   (C7_merge_concat ⟨2, 2⟩ ⟨1, 1⟩ (by decide) (by decide)).2.2.1,
   (C7_merge_concat ⟨2, 2⟩ ⟨1, 1⟩ (by decide) (by decide)).2.2.2.1,
   (C7_merge_concat ⟨2, 2⟩ ⟨1, 1⟩ (by decide) (by decide)).2.2.2.2⟩

/-- C8: Hex emits the 0x marker followed by the base-sixteen digits of
the value left-zero-padded to the declared length divided by four
rounded upward (never to the declared length itself); on valid entities
of positive length the result has exactly that many digit characters,
and the spec's concrete case of length seven holding 127 prints 0x7f. -/
theorem C8_hex_padding :
    (∀ s : Spectrum, s.Hex = "0x" ++ goPad ((s.length + 3) / 4) (s.Text 16)) ∧
    (∀ s : Spectrum, s.Valid → 1 ≤ s.length →
      (s.Hex).length = (s.length + 3) / 4 + 2) ∧
    Spectrum.Hex ⟨127, 7⟩ = "0x7f" := by
  have hwidth : ∀ L : ℕ,
      (if 0 < L % 4 then L / 4 + 1 else L / 4) = (L + 3) / 4 := by
    intro L
    split_ifs <;> omega
  refine ⟨?_, ?_, by decide⟩
  · intro s
    unfold Spectrum.Hex Spectrum.Text
    show ("0x" ++ goPad
        (if 0 < s.length % 4 then s.length / 4 + 1 else s.length / 4)
        (bigText 16 s.bitVector)) = _
    rw [hwidth]
  · intro s hs h1
    obtain ⟨h0, hlt⟩ := hs
    obtain ⟨v, hveq⟩ : ∃ v : ℕ, s.bitVector = (v : ℤ) :=
      ⟨s.bitVector.toNat, (Int.toNat_of_nonneg h0).symm⟩
    have hv : v < 2 ^ s.length := by
      rw [hveq, ← intCast_pow_nat] at hlt
      exact_mod_cast hlt
    unfold Spectrum.Hex
    show ("0x" ++ goPad
        (if 0 < s.length % 4 then s.length / 4 + 1 else s.length / 4)
        (bigText 16 s.bitVector)).length = _
    rw [hwidth, String.length_append, goPad_length]
    have hbig : bigText 16 s.bitVector = natText 16 v := by
      unfold bigText
      rw [hveq, if_neg (not_lt.mpr (by positivity))]
      simp
    have h16 : (2 : ℕ) ^ s.length ≤ 16 ^ ((s.length + 3) / 4) := by
      have h4 : (16 : ℕ) ^ ((s.length + 3) / 4)
          = 2 ^ (4 * ((s.length + 3) / 4)) := by
        rw [pow_mul]
        norm_num
      rw [h4]
      exact Nat.pow_le_pow_right (by omega) (by omega)
    have htxt : (natText 16 v).length ≤ (s.length + 3) / 4 :=
      natText_length_le (by norm_num) (by omega)
        (lt_of_lt_of_le hv h16)
    rw [hbig]
    have h0x : ("0x" : String).length = 2 := rfl
    omega

theorem C8_witness :
    Spectrum.Hex ⟨4294967295, 64⟩ =
      "0x" ++ goPad ((64 + 3) / 4) (Spectrum.Text ⟨4294967295, 64⟩ 16) ∧
    (Spectrum.Hex ⟨4294967295, 64⟩).length = (64 + 3) / 4 + 2 :=
  ⟨C8_hex_padding.1 ⟨4294967295, 64⟩,
   C8_hex_padding.2.1 ⟨4294967295, 64⟩ (by decide) (by decide)⟩

/-- C9: Bit emits the 0b marker followed by the base-two digits of the
value left-zero-padded to exactly the declared length; on valid
entities of positive length the result has exactly length-many digit
characters, and the spec's concrete case of length thirty-two holding
all ones prints 0b followed by thirty-two one characters. -/
theorem C9_binary_padding :
    (∀ s : Spectrum, s.Bit = "0b" ++ goPad s.length (s.Text 2)) ∧
    (∀ s : Spectrum, s.Valid → 1 ≤ s.length →
      (s.Bit).length = s.length + 2) ∧
    Spectrum.Bit ⟨4294967295, 32⟩ =
      "0b11111111111111111111111111111111" := by
  refine ⟨fun s => rfl, ?_, by decide⟩
  intro s hs h1
  obtain ⟨h0, hlt⟩ := hs
  obtain ⟨v, hveq⟩ : ∃ v : ℕ, s.bitVector = (v : ℤ) :=
    ⟨s.bitVector.toNat, (Int.toNat_of_nonneg h0).symm⟩
  have hv : v < 2 ^ s.length := by
    rw [hveq, ← intCast_pow_nat] at hlt
    exact_mod_cast hlt
  unfold Spectrum.Bit
  rw [String.length_append, goPad_length]
  have hbig : bigText 2 s.bitVector = natText 2 v := by
    unfold bigText
    rw [hveq, if_neg (not_lt.mpr (by positivity))]
    simp
  have htxt : (natText 2 v).length ≤ s.length :=
    natText_length_le (by norm_num) h1 hv
  rw [hbig]
  have h0b : ("0b" : String).length = 2 := rfl
  omega

theorem C9_witness :
    Spectrum.Bit ⟨4294967295, 36⟩ =
      "0b" ++ goPad 36 (Spectrum.Text ⟨4294967295, 36⟩ 2) ∧
    (Spectrum.Bit ⟨4294967295, 36⟩).length = 36 + 2 :=
  ⟨C9_binary_padding.1 ⟨4294967295, 36⟩,
   C9_binary_padding.2.1 ⟨4294967295, 36⟩ (by decide) (by decide)⟩

/-- C10: on a valid Spectrum, Copy yields an entity with the same
declared length and the same value (indeed the same value state, the
random source not being part of it), and the weight-adjusted readouts
Uint64n and BigIntn compute their result from such a copy, the
receiver being passed through untouched by these pure functions. -/
theorem C10_copy_independent (s : Spectrum) (n : ℕ) (rs : List ℕ)
    (hs : s.Valid) :
    s.Copy = s ∧
    s.Copy.length = s.length ∧ s.Copy.bitVector = s.bitVector ∧
    s.BigIntn n rs = (s.AdjustOnesCount n rs).map Spectrum.BigInt ∧
    s.Uint64n n rs = (s.AdjustOnesCount n rs).map Spectrum.Uint64 := by
  have hc := copy_of_valid hs
  refine ⟨hc, by rw [hc], by rw [hc], ?_, ?_⟩
  · unfold Spectrum.BigIntn
    rw [hc]
  · unfold Spectrum.Uint64n
    rw [hc]

theorem C10_witness :
    (Spectrum.mk 9 4).Copy = Spectrum.mk 9 4 ∧
    Spectrum.BigIntn ⟨9, 4⟩ 2 [1] =
      (Spectrum.AdjustOnesCount ⟨9, 4⟩ 2 [1]).map Spectrum.BigInt ∧
    Spectrum.Uint64n ⟨9, 4⟩ 2 [1] =
      (Spectrum.AdjustOnesCount ⟨9, 4⟩ 2 [1]).map Spectrum.Uint64 :=
  ⟨(C10_copy_independent ⟨9, 4⟩ 2 [1] (by decide)).1,
   (C10_copy_independent ⟨9, 4⟩ 2 [1] (by decide)).2.2.2.1,
   (C10_copy_independent ⟨9, 4⟩ 2 [1] (by decide)).2.2.2.2⟩
